import Mathlib

/-!
Verification of the pub-corp-repository core: the version-ordering
comparators, the package repository merge operations, and the
list/lookup/upload use-case flows.

Python strings are modelled as `List Char` (Unicode code points, compared
by `Char.toNat`, which matches Python's code-point string comparison).
`str.split` on a single-character separator, slicing with default values,
and `int()` (modelled on the non-empty all-digit fragment that the version
strings under consideration use) are embedded as structurally recursive
functions so that every definition is kernel-executable.
-/

namespace PubProxy

/-! ### Python string primitives -/

/-- Python `sep in s` for a single-character separator. -/
def pyContains (sep : Char) (s : List Char) : Bool :=
  s.any (fun c => c = sep)

/-- Split at the first occurrence of `sep`: `some (before, after)` when `sep`
occurs in `s`, `none` otherwise.  `s.split(sep, 1)` returns `[before, after]`
exactly when this returns `some`, and `[s]` otherwise. -/
def splitFirst (sep : Char) : List Char → Option (List Char × List Char)
  | [] => none
  | c :: cs =>
    if c = sep then some ([], cs)
    else (splitFirst sep cs).map (fun p => (c :: p.1, p.2))

/-- Python `s.split(sep)[0]`: the part of `s` before the first `sep`
(all of `s` when `sep` does not occur). -/
def splitHead (sep : Char) (s : List Char) : List Char :=
  match splitFirst sep s with
  | some p => p.1
  | none => s

/-- Python `s.split(sep)` for a single-character separator:
`"".split(sep) == ['']`, separators delimit (possibly empty) fields. -/
def pySplit (sep : Char) : List Char → List (List Char)
  | [] => [[]]
  | c :: cs =>
    match pySplit sep cs with
    | [] => [[]]
    | t :: ts => if c = sep then [] :: t :: ts else (c :: t) :: ts

/-- Python `int(x)` restricted to the non-empty all-digit strings that the
version components under consideration consist of; other strings (on which
Python would either raise `ValueError` or apply sign/underscore/whitespace
rules that no version string here uses) are mapped to `none`, modelling the
raised exception. -/
def pyIntDigits (s : List Char) : Option Nat :=
  if s ≠ [] ∧ s.all Char.isDigit then
    some (s.foldl (fun a c => 10 * a + (c.toNat - '0'.toNat)) 0)
  else none

/-- Python string comparison (`<`, `>` on `str`): lexicographic on code
points, a proper prefix being smaller; returns -1 / 0 / 1. -/
def pyStrCmp : List Char → List Char → Int
  | [], [] => 0
  | [], _ :: _ => -1
  | _ :: _, [] => 1
  | a :: as, b :: bs =>
    if a.toNat < b.toNat then -1
    else if b.toNat < a.toNat then 1
    else pyStrCmp as bs

/-! ### Numeric release-component comparison

Both comparators compare the dot-separated release components as integers,
treating a missing trailing component as `0`.
`PackageRepository._compare_versions` pads both lists with zeros to a common
length and scans for the first difference (lines 309-318);
`UploadPackageUseCase._compare_versions` indexes with a default of `0`
(lines 227-234).  `padCmp` embeds the former, `idxCmp` the latter, and
`padCmp_eq_idxCmp` shows they compute the same function. -/

/-- Comparison of one pair of numeric components. -/
def natCmp (a b : Nat) : Int :=
  if a < b then -1 else if b < a then 1 else 0

/-- The first nonzero component comparison, `0` if all are zero
(the loop `for i in range(max_len): ... return -1/1` falling through). -/
def firstNonzero : List Int → Int
  | [] => 0
  | c :: cs => if c ≠ 0 then c else firstNonzero cs

/-- `PackageRepository._compare_versions` release-segment loop: pad both
component lists with zeros to the maximum length, compare pairwise, return
at the first difference. -/
def padCmp (v1 v2 : List Nat) : Int :=
  let maxLen := max v1.length v2.length
  let p1 := v1 ++ List.replicate (maxLen - v1.length) 0
  let p2 := v2 ++ List.replicate (maxLen - v2.length) 0
  firstNonzero (List.zipWith natCmp p1 p2)

/-- The tail of the upload release-segment loop once the left list is
exhausted: each remaining right component is compared against `0`. -/
def idxCmpRight : List Nat → Int
  | [] => 0
  | b :: bs =>
    let c := natCmp 0 b
    if c ≠ 0 then c else idxCmpRight bs

/-- `UploadPackageUseCase._compare_versions` release-segment loop: index
each list, out-of-range components read as `0`, return at the first
difference. -/
def idxCmp : List Nat → List Nat → Int
  | [], bs => idxCmpRight bs
  | a :: as, [] =>
    let c := natCmp a 0
    if c ≠ 0 then c else idxCmp as []
  | a :: as, b :: bs =>
    let c := natCmp a b
    if c ≠ 0 then c else idxCmp as bs

/-! ### The repository comparator
`PackageRepository._compare_versions` (package_repository.py lines 277-333). -/

/-- `parse_version` (lines 289-294): split off the prerelease suffix at the
first `-`. -/
def parseVersionRepo (v : List Char) : List Char × Option (List Char) :=
  match splitFirst '-' v with
  | some p => (p.1, some p.2)
  | none => (v, none)

/-- The parsed key of a version string under the repository comparator:
release components (after stripping a `+` suffix from the base, lines
299-303, and `int()`-parsing the dot-separated components, line 306) and
the optional prerelease string.  `none` when a component fails to parse,
modelling the `ValueError` Python raises. -/
def repoKey (v : List Char) : Option (List Nat × Option (List Char)) :=
  let bp := parseVersionRepo v
  let base := splitHead '+' bp.1
  ((pySplit '.' base).mapM pyIntDigits).map (fun parts => (parts, bp.2))

/-- The prerelease tail of both comparators (repository lines 320-333,
upload lines 236-249): equal release segments, then a version with no
prerelease sorts above one with a prerelease, and two prereleases compare
as plain strings. -/
def preCmp : Option (List Char) → Option (List Char) → Int
  | none, none => 0
  | none, some _ => 1
  | some _, none => -1
  | some p1, some p2 => pyStrCmp p1 p2

/-- Comparison of two parsed keys under the repository comparator: release
components first (lines 305-318), then the prerelease tail. -/
def keyCmp (k1 k2 : List Nat × Option (List Char)) : Int :=
  let c := padCmp k1.1 k2.1
  if c ≠ 0 then c else preCmp k1.2 k2.2

/-- `PackageRepository._compare_versions(version1, version2)`:
equal strings short-circuit to `0` (line 285); otherwise both sides are
parsed and the keys compared; `none` models the `ValueError` raised on an
unparsable release component. -/
def repoCompareVersions (version1 version2 : List Char) : Option Int :=
  if version1 = version2 then some 0
  else
    match repoKey version1, repoKey version2 with
    | some k1, some k2 => some (keyCmp k1 k2)
    | _, _ => none

/-! ### The upload comparator
`UploadPackageUseCase._compare_versions` (upload_package_use_case.py lines
202-249).  It first strips everything after `+` (lines 213-215), then takes
the base before the first `-` and, when a `-` is present, the *single*
segment `split('-')[1]` between the first and second `-` (lines 217-221). -/

/-- The parsed key under the upload comparator. -/
def uploadKey (v : List Char) : Option (List Nat × Option (List Char)) :=
  let clean := splitHead '+' v
  let base := splitHead '-' clean
  let pre : Option (List Char) :=
    match splitFirst '-' clean with
    | none => none
    | some p => some (splitHead '-' p.2)
  ((pySplit '.' base).mapM pyIntDigits).map (fun parts => (parts, pre))

/-- Comparison of two parsed upload keys (identical tail logic to the
repository comparator but with the `idxCmp` release loop). -/
def uploadKeyCmp (k1 k2 : List Nat × Option (List Char)) : Int :=
  let c := idxCmp k1.1 k2.1
  if c ≠ 0 then c else preCmp k1.2 k2.2

/-- `UploadPackageUseCase._compare_versions(version1, version2)`. -/
def uploadCompareVersions (version1 version2 : List Char) : Option Int :=
  if version1 = version2 then some 0
  else
    match uploadKey version1, uploadKey version2 with
    | some k1, some k2 => some (uploadKeyCmp k1 k2)
    | _, _ => none

/-! ### Entities (core/entities/package.py)

`published` timestamps are kept as their ISO strings: the embedding treats
`datetime.fromisoformat` / `isoformat` as inverse on the well-formed
payloads under consideration, and no claim depends on timestamp structure.
Python dicts for dependency/environment maps are association lists. -/

/-- `PackageVersion` dataclass (package.py lines 21-41). -/
structure PackageVersion where
  version : String
  published : String
  dependencies : List (String × String)
  environment : List (String × String)
  archive_url : Option String
  archive_sha256 : Option String
deriving DecidableEq

/-- `Package` dataclass (package.py lines 44-66). -/
structure Package where
  name : String
  versions : List PackageVersion
  latest_version : Option String
  description : Option String
  homepage : Option String
  repository : Option String
  is_private : Bool
deriving DecidableEq

/-! ### Upstream payloads as read by the repository merge methods

Only the fields the code reads are modelled.  Payloads whose `published`
entry is missing or not ISO-parseable make `datetime.fromisoformat` raise
before any state is built and are outside the model, as are version
entries lacking the `version` key. -/

/-- One entry of `package_info['versions']` as read by `save_package_info`
(package_repository.py lines 197-215). -/
structure UpstreamVersionInfo where
  version : String
  published : String
  pubspec_dependencies : List (String × String)
  pubspec_environment : List (String × String)
  archive_url : Option String
  archive_sha256 : Option String

/-- The `package_info` payload as read by `save_package_info`
(lines 179-197): `latest_version` is `package_info.get('latest', {}).get('version')`. -/
structure UpstreamPackageInfo where
  latest_version : Option String
  description : Option String
  homepage : Option String
  repository : Option String
  versions : List UpstreamVersionInfo

/-- The `version_info` payload as read by `save_package_version`
(lines 250-267). -/
structure UpstreamVersionDetail where
  published : String
  dependencies : List (String × String)
  archive_url : Option String
  archive_sha256 : Option String

/-! ### PackageRepository.save_package_info (lines 166-223)

The use cases call `get_package` and then `save_package`; serialization is
out of scope, so each merge method is embedded as the pure transformation
from the pre-existing package (`none` models `get_package` returning
`None`) to the package handed to `save_package`.  `none` as a result
models a raised exception (nothing saved): a version comparison crashing
on an unparsable component. -/

/-- The `for version_info in package_info.get('versions', [])` loop (lines
197-220): append each version not already present, and move
`latest_version` forward when the guard
`not package.latest_version or compare(version_name, latest) > 0` fires
(`not` is Python truthiness: `None` and `''` are falsy). -/
def savePackageInfoLoop : Package → List UpstreamVersionInfo → Option Package
  | package, [] => some package
  | package, vi :: rest =>
    if package.versions.any (fun v => v.version = vi.version) then
      savePackageInfoLoop package rest
    else
      let package' : Package := { package with versions := package.versions ++
        [⟨vi.version, vi.published, vi.pubspec_dependencies,
          vi.pubspec_environment, vi.archive_url, vi.archive_sha256⟩] }
      match package'.latest_version with
      | none => savePackageInfoLoop { package' with latest_version := some vi.version } rest
      | some lv =>
        if lv = "" then
          savePackageInfoLoop { package' with latest_version := some vi.version } rest
        else
          match repoCompareVersions vi.version.data lv.data with
          | none => none
          | some c =>
            if c > 0 then
              savePackageInfoLoop { package' with latest_version := some vi.version } rest
            else savePackageInfoLoop package' rest

/-- `save_package_info(package_name, package_info)`: create the package if
absent (lines 179-188, `is_private=False`, `versions` defaulting empty) or
overwrite its metadata — including `latest_version` — from the payload
(lines 189-194), then run the version loop. -/
def savePackageInfo (existing : Option Package) (package_name : String)
    (package_info : UpstreamPackageInfo) : Option Package :=
  let package : Package :=
    match existing with
    | none =>
      { name := package_name, versions := [],
        latest_version := package_info.latest_version,
        description := package_info.description,
        homepage := package_info.homepage,
        repository := package_info.repository,
        is_private := false }
    | some package =>
      { package with
        latest_version := package_info.latest_version,
        description := package_info.description,
        homepage := package_info.homepage,
        repository := package_info.repository }
  savePackageInfoLoop package package_info.versions

/-! ### PackageRepository.save_package_version (lines 225-275) -/

/-- The `for version in package.versions: if version.version == version_name`
update (lines 249-257): the first matching entry is updated in place
(`environment` is not touched). -/
def updateFirstVersion (version_name : String) (d : UpstreamVersionDetail) :
    List PackageVersion → List PackageVersion
  | [] => []
  | v :: rest =>
    if v.version = version_name then
      { v with
        published := d.published
        dependencies := d.dependencies
        archive_url := d.archive_url
        archive_sha256 := d.archive_sha256 } :: rest
    else v :: updateFirstVersion version_name d rest

/-- The create-or-update of the version list in `save_package_version`
(lines 247-268). -/
def savePackageVersionApply (package : Package) (version_name : String)
    (version_info : UpstreamVersionDetail) : Package :=
  if package.versions.any (fun v => v.version = version_name) then
    { package with
      versions := updateFirstVersion version_name version_info package.versions }
  else
    { package with versions := package.versions ++
      [⟨version_name, version_info.published, version_info.dependencies,
        [], version_info.archive_url, version_info.archive_sha256⟩] }

/-- `save_package_version(package_name, version_name, version_info)`. -/
def savePackageVersion (existing : Option Package)
    (package_name version_name : String)
    (version_info : UpstreamVersionDetail) : Option Package :=
  let package : Package :=
    match existing with
    | none =>
      { name := package_name, versions := [],
        latest_version := some version_name, description := none,
        homepage := none, repository := none, is_private := false }
    | some p => p
  let package' : Package := savePackageVersionApply package version_name version_info
  match package'.latest_version with
  | none => some { package' with latest_version := some version_name }
  | some lv =>
    if lv = "" then some { package' with latest_version := some version_name }
    else
      match repoCompareVersions version_name.data lv.data with
      | none => none
      | some c =>
        if c > 0 then some { package' with latest_version := some version_name }
        else some package'

/-! ### UploadPackageUseCase.execute (upload_package_use_case.py lines 54-151)

The storage upload, temp file, hash and URL construction are external
effects; the embedding is the transformation from the pre-existing package
to the Package handed to `save_package`, parameterised by the already
computed `archive_url`, `sha256_hash` and `datetime.now()` timestamp. -/

/-- The `for pkg_version in package.versions` in-place update of an
existing version (lines 113-121). -/
def uploadUpdateFirst (version archive_url sha256 now : String) :
    List PackageVersion → List PackageVersion
  | [] => []
  | v :: rest =>
    if v.version = version then
      { v with
        published := now
        archive_url := some archive_url
        archive_sha256 := some sha256 } :: rest
    else v :: uploadUpdateFirst version archive_url sha256 now rest

/-- The add-or-update of the version list on the existing-package path of
`execute` (lines 111-131). -/
def uploadApplyVersions (package : Package)
    (version archive_url sha256 now : String) : Package :=
  if package.versions.any (fun v => v.version = version) then
    { package with
      versions := uploadUpdateFirst version archive_url sha256 now package.versions }
  else
    { package with versions := package.versions ++
      [⟨version, now, [], [], some archive_url, some sha256⟩] }

/-- `execute` package mutation: a new package is created private (lines
96-110); an existing package gets the version added or updated and
`latest_version` moved forward when the upload compares greater (lines
111-135) — `is_private` is not touched on that path, and the comparison
runs with no falsy guard, so `latest_version = None` raises
(`None.split`), modelled as `none`. -/
def uploadExecute (existing : Option Package)
    (package_name version archive_url sha256 now : String) : Option Package :=
  match existing with
  | none =>
    some { name := package_name,
           versions := [⟨version, now, [], [], some archive_url, some sha256⟩],
           latest_version := some version, description := none,
           homepage := none, repository := none, is_private := true }
  | some package =>
    let package' : Package := uploadApplyVersions package version archive_url sha256 now
    match package'.latest_version with
    | none => none
    | some lv =>
      match uploadCompareVersions version.data lv.data with
      | none => none
      | some c =>
        if c > 0 then some { package' with latest_version := some version }
        else some package'

/-! ### ProxyPackageUseCase.get_package_version hit path
(proxy_package_use_case.py lines 72-99 and 169-185) -/

/-- The dictionary `_version_to_dict` builds (lines 176-185): note the
hardcoded `archive_url` and pubspec `name`, the `'.000Z'` suffix, and the
falsy-`or` default for `environment`. -/
structure PubDevVersionDict where
  version : String
  published : String
  archive_url : String
  pubspec_name : String
  pubspec_version : String
  pubspec_environment : List (String × String)
deriving DecidableEq

/-- `_version_to_dict(version)`. -/
def versionToDict (version : PackageVersion) : PubDevVersionDict :=
  { version := version.version,
    published := version.published ++ ".000Z",
    archive_url := "http://example.com/test_package-" ++ version.version ++ ".tar.gz",
    pubspec_name := "test_package",
    pubspec_version := version.version,
    pubspec_environment :=
      if version.environment = [] then [("sdk", ">=2.12.0 <4.0.0")]
      else version.environment }

/-- The repository-hit path of `get_package_version` (lines 84-90): when
the package exists, scan its versions for the requested one and return its
dictionary; `none` means the flow falls through to the upstream fetch. -/
def getPackageVersionFromRepo (package : Package) (version : String) :
    Option PubDevVersionDict :=
  (package.versions.find? (fun v => v.version = version)).map versionToDict

/-! ### ListPackagesUseCase.execute (list_packages_use_case.py lines 43-95) -/

/-- One entry of the merged catalog list.  Repository entries carry the
`'latest'` key (line 156 of package_repository.py); upstream-derived
entries carry `'latest_version'` (line 74); the field not belonging to an
entry's dict is `none`. -/
structure ListEntry where
  name : String
  latest : Option String
  latest_version : Option String
  description : Option String
  homepage : Option String
  repository : Option String
  is_private : Bool
deriving DecidableEq

/-- One element of the upstream search response's `'packages'` list:
only `package_data.get('package')` is read. -/
structure UpstreamSearchEntry where
  package : Option String
deriving DecidableEq

/-- Lines 67-79: convert one upstream search entry, skipping entries whose
`'package'` value is missing or falsy (empty) and names already present
privately. -/
def upstreamToEntry (priv_names : List String) (u : UpstreamSearchEntry) :
    Option ListEntry :=
  match u.package with
  | none => none
  | some pkg_name =>
    if pkg_name = "" then none
    else if pkg_name ∈ priv_names then none
    else some { name := pkg_name, latest := none, latest_version := some "latest",
                description := some "Package from pub.dev",
                homepage := some ("https://pub.dev/packages/" ++ pkg_name),
                repository := none, is_private := false }

/-- Lines 62-79: private entries first, then the converted upstream
entries (`pub_dev_packages is None` degrades to local-only). -/
def mergedList (priv : List ListEntry)
    (resp : Option (List UpstreamSearchEntry)) : List ListEntry :=
  priv ++
    match resp with
    | none => []
    | some ups => ups.filterMap (upstreamToEntry (priv.map (fun p => p.name)))

/-- The sort key of line 82: ascending package name under Python string
comparison. -/
def entryLe (a b : ListEntry) : Prop := pyStrCmp a.name.data b.name.data ≤ 0

instance : DecidableRel entryLe := fun a b => by
  unfold entryLe; infer_instance

/-- The result dictionary of lines 89-95. -/
structure ListResult where
  packages : List ListEntry
  total : Nat
  page : Nat
  page_size : Nat
  pages : Nat
deriving DecidableEq

/-- `execute(query, page, page_size)` given the repository catalog already
filtered by the query (`list_packages(query)`) and the upstream search
response.  Python's stable `list.sort(key=name)` is embedded as insertion
sort on the name order (any stable sort computes the same list); the slice
`[(page-1)*page_size : (page-1)*page_size + page_size]` is drop/take. -/
def listExecute (priv : List ListEntry)
    (resp : Option (List UpstreamSearchEntry)) (page page_size : Nat) :
    ListResult :=
  let packages := mergedList priv resp
  let sortedPackages := List.insertionSort entryLe packages
  let start_index := (page - 1) * page_size
  let paginated := (sortedPackages.drop start_index).take page_size
  { packages := paginated, total := packages.length, page := page,
    page_size := page_size,
    pages := (packages.length + page_size - 1) / page_size }

/-! ### Order theory for the comparators

`lexCmp cmp` is the generic first-difference lexicographic comparator (a
shorter list that is a proper prefix compares smaller).  The release-segment
loops of both comparators are equal to `lexCmp natCmp` applied to the lists
with trailing zeros removed (`canon`), and the prerelease comparison is
`lexCmp` at character level, so one suite of lemmas serves every level. -/

/-- Generic lexicographic comparison from an element comparator. -/
def lexCmp (cmp : α → α → Int) : List α → List α → Int
  | [], [] => 0
  | [], _ :: _ => -1
  | _ :: _, [] => 1
  | a :: as, b :: bs =>
    let c := cmp a b
    if c ≠ 0 then c else lexCmp cmp as bs

/-- A comparator is lawful when it is reflexive, antisymmetric, valued in
{-1, 0, 1}, separates points, and its strict part is transitive. -/
structure LawfulCmp (cmp : α → α → Int) : Prop where
  self_eq : ∀ a, cmp a a = 0
  neg_eq : ∀ a b, cmp b a = -cmp a b
  tri : ∀ a b, cmp a b = -1 ∨ cmp a b = 0 ∨ cmp a b = 1
  eq_of : ∀ a b, cmp a b = 0 → a = b
  lt_trans : ∀ a b c, cmp a b = -1 → cmp b c = -1 → cmp a c = -1

theorem natCmp_lawful : LawfulCmp natCmp := by
  constructor
  · intro a; simp [natCmp]
  · intro a b; unfold natCmp
    rcases Nat.lt_trichotomy a b with h | rfl | h
    · simp [h, Nat.lt_asymm h]
    · simp [Nat.lt_irrefl]
    · simp [h, Nat.lt_asymm h]
  · intro a b; unfold natCmp
    by_cases h1 : a < b
    · simp [h1]
    · by_cases h2 : b < a <;> simp [h1, h2]
  · intro a b h; unfold natCmp at h
    split at h
    · simp at h
    · split at h
      · simp at h
      · omega
  · intro a b c hab hbc
    unfold natCmp at hab hbc ⊢
    split at hab <;> split at hbc <;> simp_all <;> omega

theorem lexCmp_self {cmp : α → α → Int} (hl : LawfulCmp cmp) :
    ∀ v, lexCmp cmp v v = 0 := by
  intro v
  induction v with
  | nil => rfl
  | cons a as ih => simp [lexCmp, hl.self_eq, ih]

theorem lexCmp_neg {cmp : α → α → Int} (hl : LawfulCmp cmp) :
    ∀ v1 v2, lexCmp cmp v2 v1 = -lexCmp cmp v1 v2 := by
  intro v1
  induction v1 with
  | nil => intro v2; cases v2 <;> simp [lexCmp]
  | cons a as ih =>
    intro v2
    cases v2 with
    | nil => simp [lexCmp]
    | cons b bs =>
      simp only [lexCmp, hl.neg_eq a b]
      rcases hl.tri a b with h | h | h <;> simp [h, ih bs]

theorem lexCmp_tri {cmp : α → α → Int} (hl : LawfulCmp cmp) :
    ∀ v1 v2, lexCmp cmp v1 v2 = -1 ∨ lexCmp cmp v1 v2 = 0 ∨ lexCmp cmp v1 v2 = 1 := by
  intro v1
  induction v1 with
  | nil => intro v2; cases v2 <;> simp [lexCmp]
  | cons a as ih =>
    intro v2
    cases v2 with
    | nil => simp [lexCmp]
    | cons b bs =>
      simp only [lexCmp]
      rcases hl.tri a b with h | h | h <;> simp [h, ih bs]

theorem lexCmp_eq_of {cmp : α → α → Int} (hl : LawfulCmp cmp) :
    ∀ v1 v2, lexCmp cmp v1 v2 = 0 → v1 = v2 := by
  intro v1
  induction v1 with
  | nil => intro v2 h; cases v2 <;> simp_all [lexCmp]
  | cons a as ih =>
    intro v2 h
    cases v2 with
    | nil => simp [lexCmp] at h
    | cons b bs =>
      simp only [lexCmp] at h
      by_cases hc : cmp a b = 0
      · rw [hl.eq_of a b hc, ih bs (by simpa [hc] using h)]
      · simp [hc] at h

theorem lexCmp_lt_trans {cmp : α → α → Int} (hl : LawfulCmp cmp) :
    ∀ v1 v2 v3, lexCmp cmp v1 v2 = -1 → lexCmp cmp v2 v3 = -1 →
      lexCmp cmp v1 v3 = -1 := by
  intro v1
  induction v1 with
  | nil =>
    intro v2 v3 h12 h23
    cases v2 with
    | nil => simp [lexCmp] at h12
    | cons b bs =>
      cases v3 with
      | nil => simp [lexCmp] at h23
      | cons c cs => simp [lexCmp]
  | cons a as ih =>
    intro v2 v3 h12 h23
    cases v2 with
    | nil => simp [lexCmp] at h12
    | cons b bs =>
      cases v3 with
      | nil => simp [lexCmp] at h23
      | cons c cs =>
        simp only [lexCmp] at h12 h23 ⊢
        by_cases hab : cmp a b = 0
        · have hab' := hl.eq_of a b hab
          subst hab'
          simp [hab] at h12
          by_cases hbc : cmp a c = 0
          · have := hl.eq_of a c hbc
            subst this
            simp [hbc] at h23 ⊢
            exact ih bs cs h12 h23
          · simp [hbc] at h23 ⊢; exact h23
        · simp [hab] at h12
          by_cases hbc : cmp b c = 0
          · have := hl.eq_of b c hbc
            subst this
            simp [h12, hab]
          · simp [hbc] at h23
            have hac := hl.lt_trans a b c h12 h23
            simp [hac]

/-- `lexCmp` of a lawful comparator is itself lawful. -/
theorem lexCmp_lawful {cmp : α → α → Int} (hl : LawfulCmp cmp) :
    LawfulCmp (lexCmp cmp) :=
  ⟨lexCmp_self hl, fun a b => lexCmp_neg hl a b, lexCmp_tri hl,
   lexCmp_eq_of hl, lexCmp_lt_trans hl⟩

/-- Python's character comparison: by code point. -/
def chrCmp (a b : Char) : Int := natCmp a.toNat b.toNat

theorem chrCmp_lawful : LawfulCmp chrCmp := by
  refine ⟨fun a => natCmp_lawful.self_eq _, fun a b => natCmp_lawful.neg_eq _ _,
    fun a b => natCmp_lawful.tri _ _, fun a b h => ?_,
    fun a b c h1 h2 => natCmp_lawful.lt_trans _ _ _ h1 h2⟩
  exact Char.ext (UInt32.toNat.inj (natCmp_lawful.eq_of _ _ h))

theorem pyStrCmp_eq_lexCmp (v1 v2 : List Char) :
    pyStrCmp v1 v2 = lexCmp chrCmp v1 v2 := by
  induction v1 generalizing v2 with
  | nil => cases v2 <;> rfl
  | cons a as ih =>
    cases v2 with
    | nil => rfl
    | cons b bs =>
      simp only [pyStrCmp, lexCmp, chrCmp, natCmp, ih bs]
      rcases Nat.lt_trichotomy a.toNat b.toNat with h | h | h
      · simp [h, Nat.lt_asymm h]
      · simp [h, Nat.lt_irrefl]
      · simp [h, Nat.lt_asymm h]

/-- Remove trailing zero components: the canonical form of a release
segment under "missing trailing components read as 0". -/
def canon : List Nat → List Nat
  | [] => []
  | a :: as =>
    match canon as with
    | [] => if a = 0 then [] else [a]
    | t :: ts => a :: t :: ts

theorem idxCmpRight_eq (bs : List Nat) :
    idxCmpRight bs = lexCmp natCmp [] (canon bs) := by
  induction bs with
  | nil => rfl
  | cons b bs ih =>
    by_cases hb : b = 0
    · subst hb
      simp only [idxCmpRight, natCmp, canon, Nat.lt_irrefl]
      cases hcb : canon bs <;> simp_all [lexCmp]
    · have hb' : 0 < b := Nat.pos_of_ne_zero hb
      simp only [idxCmpRight, natCmp, hb', if_pos]
      cases hcb : canon bs <;> simp [canon, hcb, hb, lexCmp]

theorem idxCmp_nil_eq (as : List Nat) :
    idxCmp as [] = lexCmp natCmp (canon as) [] := by
  induction as with
  | nil => rfl
  | cons a as ih =>
    by_cases ha : a = 0
    · subst ha
      simp only [idxCmp, natCmp, canon, Nat.lt_irrefl]
      cases hca : canon as <;> simp_all [lexCmp]
    · have ha' : 0 < a := Nat.pos_of_ne_zero ha
      simp only [idxCmp, natCmp, ha', Nat.not_lt_zero, if_neg, if_pos]
      cases hca : canon as <;> simp [canon, hca, ha, lexCmp, Nat.not_lt_zero]

theorem idxCmp_eq_lexCmp_canon (v1 v2 : List Nat) :
    idxCmp v1 v2 = lexCmp natCmp (canon v1) (canon v2) := by
  induction v1 generalizing v2 with
  | nil => simpa [idxCmp, canon] using idxCmpRight_eq v2
  | cons a as ih =>
    cases v2 with
    | nil => simpa [canon] using idxCmp_nil_eq (a :: as)
    | cons b bs =>
      by_cases hab : natCmp a b = 0
      · have hab' := natCmp_lawful.eq_of _ _ hab
        subst hab'
        simp only [idxCmp, hab, ne_eq, not_true_eq_false, if_false, ih bs]
        cases hca : canon as <;> cases hcb : canon bs <;>
          by_cases ha : a = 0 <;>
            simp [canon, hca, hcb, ha, lexCmp, natCmp_lawful.self_eq]
      · simp only [idxCmp, hab, ne_eq, not_false_eq_true, if_true]
        have hne : a ≠ b := fun h => hab (h ▸ natCmp_lawful.self_eq a)
        cases hca : canon as <;> cases hcb : canon bs <;>
          by_cases ha : a = 0 <;> by_cases hb : b = 0 <;>
            first
            | (exfalso; exact hne (ha.trans hb.symm))
            | simp_all [canon, lexCmp, natCmp, Nat.pos_of_ne_zero,
                Nat.lt_irrefl, Nat.not_lt_zero]

theorem padCore_eq (v1 v2 : List Nat) :
    firstNonzero (List.zipWith natCmp
      (v1 ++ List.replicate (max v1.length v2.length - v1.length) 0)
      (v2 ++ List.replicate (max v1.length v2.length - v2.length) 0)) =
    idxCmp v1 v2 := by
  induction v1 generalizing v2 with
  | nil =>
    simp only [List.length_nil, Nat.zero_max, List.nil_append, Nat.sub_zero,
      Nat.sub_self, List.replicate_zero, List.append_nil, idxCmp]
    induction v2 with
    | nil => rfl
    | cons b bs ih2 =>
      simpa [List.replicate_succ, firstNonzero, idxCmpRight] using
        (by split <;> simp_all : _)
  | cons a as ih =>
    cases v2 with
    | nil =>
      simp only [List.length_nil, Nat.max_zero, Nat.sub_self,
        List.replicate_zero, List.append_nil, List.length_cons, Nat.sub_zero,
        List.replicate_succ, List.zipWith_cons_cons, firstNonzero, idxCmp]
      clear ih
      induction as with
      | nil => split <;> rfl
      | cons a' as' ih' =>
        simp only [List.length_cons, List.replicate_succ,
          List.zipWith_cons_cons, firstNonzero, idxCmp]
        split <;> simp_all
    | cons b bs =>
      simp only [List.length_cons, Nat.succ_max_succ, Nat.succ_sub_succ,
        List.cons_append, List.zipWith_cons_cons, firstNonzero, idxCmp,
        List.append_eq, ih bs]

theorem padCmp_eq_idxCmp (v1 v2 : List Nat) : padCmp v1 v2 = idxCmp v1 v2 := by
  simpa [padCmp] using padCore_eq v1 v2

theorem padCmp_eq_lexCmp_canon (v1 v2 : List Nat) :
    padCmp v1 v2 = lexCmp natCmp (canon v1) (canon v2) := by
  rw [padCmp_eq_idxCmp, idxCmp_eq_lexCmp_canon]

/-- The two parsed-key comparators compute the same function: the release
loops agree (`padCmp_eq_idxCmp`) and the tails are shared. -/
theorem uploadKeyCmp_eq_keyCmp (k1 k2 : List Nat × Option (List Char)) :
    uploadKeyCmp k1 k2 = keyCmp k1 k2 := by
  simp [uploadKeyCmp, keyCmp, padCmp_eq_idxCmp]

theorem preCmp_self (p : Option (List Char)) : preCmp p p = 0 := by
  cases p with
  | none => rfl
  | some q =>
    show pyStrCmp q q = 0
    rw [pyStrCmp_eq_lexCmp]
    exact lexCmp_self chrCmp_lawful q

theorem preCmp_neg (p1 p2 : Option (List Char)) : preCmp p2 p1 = -preCmp p1 p2 := by
  cases p1 with
  | none => cases p2 with
    | none => rfl
    | some q2 => rfl
  | some q1 => cases p2 with
    | none => rfl
    | some q2 =>
      show pyStrCmp q2 q1 = -pyStrCmp q1 q2
      rw [pyStrCmp_eq_lexCmp, pyStrCmp_eq_lexCmp]
      exact lexCmp_neg chrCmp_lawful q1 q2

theorem preCmp_le_trans (p1 p2 p3 : Option (List Char))
    (h12 : preCmp p1 p2 ≤ 0) (h23 : preCmp p2 p3 ≤ 0) : preCmp p1 p3 ≤ 0 := by
  cases p1 with
  | none =>
    cases p2 with
    | none => exact h23
    | some q2 => simp [preCmp] at h12
  | some q1 =>
    cases p3 with
    | none => simp [preCmp]
    | some q3 =>
      cases p2 with
      | none => simp [preCmp] at h23
      | some q2 =>
        simp only [preCmp, pyStrCmp_eq_lexCmp] at h12 h23 ⊢
        rcases lexCmp_tri chrCmp_lawful q1 q2 with h | h | h
        · rcases lexCmp_tri chrCmp_lawful q2 q3 with h' | h' | h'
          · have := lexCmp_lt_trans chrCmp_lawful q1 q2 q3 h h'
            omega
          · rw [lexCmp_eq_of chrCmp_lawful q2 q3 h'] at h
            omega
          · omega
        · rw [lexCmp_eq_of chrCmp_lawful q1 q2 h]
          exact h23
        · omega

theorem keyCmp_self (k : List Nat × Option (List Char)) : keyCmp k k = 0 := by
  unfold keyCmp
  rw [padCmp_eq_lexCmp_canon, lexCmp_self natCmp_lawful]
  simp [preCmp_self]

theorem keyCmp_neg (k1 k2 : List Nat × Option (List Char)) :
    keyCmp k2 k1 = -keyCmp k1 k2 := by
  simp only [keyCmp, padCmp_eq_lexCmp_canon]
  rw [lexCmp_neg natCmp_lawful (canon k1.1) (canon k2.1)]
  by_cases h : lexCmp natCmp (canon k1.1) (canon k2.1) = 0
  · simp only [h, neg_zero, ne_eq, not_true_eq_false, if_false]
    exact preCmp_neg k1.2 k2.2
  · have h' : -lexCmp natCmp (canon k1.1) (canon k2.1) ≠ 0 := by omega
    simp [h, h']

theorem keyCmp_le_trans (k1 k2 k3 : List Nat × Option (List Char))
    (h12 : keyCmp k1 k2 ≤ 0) (h23 : keyCmp k2 k3 ≤ 0) : keyCmp k1 k3 ≤ 0 := by
  simp only [keyCmp, padCmp_eq_lexCmp_canon] at h12 h23 ⊢
  by_cases e12 : lexCmp natCmp (canon k1.1) (canon k2.1) = 0
  · have hc := lexCmp_eq_of natCmp_lawful _ _ e12
    simp only [e12, ne_eq, not_true_eq_false, if_false] at h12
    by_cases e23 : lexCmp natCmp (canon k2.1) (canon k3.1) = 0
    · have hc' := lexCmp_eq_of natCmp_lawful _ _ e23
      simp only [e23, ne_eq, not_true_eq_false, if_false] at h23
      have e13 : lexCmp natCmp (canon k1.1) (canon k3.1) = 0 := by
        rw [hc, hc']; exact lexCmp_self natCmp_lawful _
      simp only [e13, ne_eq, not_true_eq_false, if_false]
      exact preCmp_le_trans _ _ _ h12 h23
    · have e13 : lexCmp natCmp (canon k1.1) (canon k3.1) =
          lexCmp natCmp (canon k2.1) (canon k3.1) := by rw [hc]
      simp only [e23, ne_eq, not_false_eq_true, if_true] at h23
      simp [e13, e23, h23]
  · simp only [e12, ne_eq, not_false_eq_true, if_true] at h12
    have h12' : lexCmp natCmp (canon k1.1) (canon k2.1) = -1 := by
      rcases lexCmp_tri natCmp_lawful (canon k1.1) (canon k2.1) with h | h | h <;>
        omega
    by_cases e23 : lexCmp natCmp (canon k2.1) (canon k3.1) = 0
    · have hc' := lexCmp_eq_of natCmp_lawful _ _ e23
      have e13 : lexCmp natCmp (canon k1.1) (canon k3.1) = -1 := by
        rw [← hc']; exact h12'
      simp [e13]
    · simp only [e23, ne_eq, not_false_eq_true, if_true] at h23
      have h23' : lexCmp natCmp (canon k2.1) (canon k3.1) = -1 := by
        rcases lexCmp_tri natCmp_lawful (canon k2.1) (canon k3.1) with h | h | h <;>
          omega
      have e13 := lexCmp_lt_trans natCmp_lawful _ _ _ h12' h23'
      simp [e13]

/-- Both sides parse: the comparison is the key comparison (the equal-string
shortcut agrees with it because equal strings have equal keys). -/
theorem repoCompare_eq_keyCmp {v1 v2 : List Char}
    {k1 k2 : List Nat × Option (List Char)}
    (h1 : repoKey v1 = some k1) (h2 : repoKey v2 = some k2) :
    repoCompareVersions v1 v2 = some (keyCmp k1 k2) := by
  by_cases h : v1 = v2
  · subst h
    rw [h1] at h2
    injection h2 with h2
    subst h2
    simp [repoCompareVersions, keyCmp_self]
  · simp [repoCompareVersions, h, h1, h2]

/-- A defined comparison of distinct strings yields parsed keys. -/
theorem repoCompare_some_of_ne {v1 v2 : List Char} {x : Int}
    (hne : v1 ≠ v2) (h : repoCompareVersions v1 v2 = some x) :
    ∃ k1 k2, repoKey v1 = some k1 ∧ repoKey v2 = some k2 ∧ x = keyCmp k1 k2 := by
  simp only [repoCompareVersions, hne, if_false] at h
  cases hk1 : repoKey v1 with
  | none => rw [hk1] at h; cases hk2 : repoKey v2 <;> rw [hk2] at h <;> simp at h
  | some k1 =>
    rw [hk1] at h
    cases hk2 : repoKey v2 with
    | none => rw [hk2] at h; simp at h
    | some k2 =>
      rw [hk2] at h
      injection h with h
      exact ⟨k1, k2, rfl, rfl, h.symm⟩

/-! ### Splitting lemmas -/

theorem splitFirst_eq_none {sep : Char} {s : List Char} (h : sep ∉ s) :
    splitFirst sep s = none := by
  induction s with
  | nil => rfl
  | cons c cs ih =>
    have hc : c ≠ sep := fun he => h (he ▸ List.mem_cons_self c cs)
    have hs : sep ∉ cs := fun hm => h (List.mem_cons_of_mem c hm)
    simp [splitFirst, hc, ih hs]

theorem not_mem_of_splitFirst_eq_none {sep : Char} {s : List Char}
    (h : splitFirst sep s = none) : sep ∉ s := by
  induction s with
  | nil => simp
  | cons c cs ih =>
    intro hm
    by_cases hc : c = sep
    · simp [splitFirst, hc] at h
    · simp only [splitFirst, if_neg hc] at h
      rcases hsf : splitFirst sep cs with _ | p
      · rcases List.mem_cons.mp hm with he | hm'
        · exact hc he.symm
        · exact ih hsf hm'
      · rw [hsf] at h; simp at h

theorem splitHead_cons_ne {sep c : Char} (cs : List Char) (hc : c ≠ sep) :
    splitHead sep (c :: cs) = c :: splitHead sep cs := by
  unfold splitHead
  rcases hsf : splitFirst sep cs with _ | p <;> simp [splitFirst, hc, hsf]

theorem splitFirst_some_spec {sep : Char} {s b r : List Char}
    (h : splitFirst sep s = some (b, r)) : s = b ++ sep :: r ∧ sep ∉ b := by
  induction s generalizing b with
  | nil => simp [splitFirst] at h
  | cons c cs ih =>
    by_cases hc : c = sep
    · simp only [splitFirst, if_pos hc, Option.some.injEq, Prod.mk.injEq] at h
      obtain ⟨hb, hr⟩ := h
      subst hb
      subst hr
      rw [hc]
      exact ⟨rfl, by simp⟩
    · rcases hsf : splitFirst sep cs with _ | p
      · simp [splitFirst, hc, hsf] at h
      · rcases p with ⟨b', r'⟩
        simp only [splitFirst, if_neg hc, hsf, Option.map_some',
          Option.some.injEq, Prod.mk.injEq] at h
        obtain ⟨hb, hr⟩ := h
        obtain ⟨hs', hnb⟩ := ih (show splitFirst sep cs = some (b', r) by
          rw [hsf, hr])
        subst hb
        constructor
        · rw [List.cons_append, ← hs']
        · intro hm
          rcases List.mem_cons.mp hm with he | hm'
          · exact hc he.symm
          · exact hnb hm'

theorem splitHead_of_not_mem {sep : Char} {s : List Char} (h : sep ∉ s) :
    splitHead sep s = s := by
  simp [splitHead, splitFirst_eq_none h]

theorem not_mem_splitHead (sep : Char) (v : List Char) :
    sep ∉ splitHead sep v := by
  unfold splitHead
  rcases hsf : splitFirst sep v with _ | p
  · exact not_mem_of_splitFirst_eq_none hsf
  · rcases p with ⟨b, r⟩
    exact (splitFirst_some_spec hsf).2

theorem splitFirst_append_sep (sep : Char) (v s : List Char) :
    ∃ r, splitFirst sep (v ++ sep :: s) = some (splitHead sep v, r) := by
  induction v with
  | nil => exact ⟨s, by simp [splitFirst, splitHead]⟩
  | cons c cs ih =>
    by_cases hc : c = sep
    · refine ⟨cs ++ sep :: s, ?_⟩
      simp [splitFirst, splitHead, hc]
    · obtain ⟨r, hr⟩ := ih
      refine ⟨r, ?_⟩
      rw [List.cons_append, splitHead_cons_ne cs hc]
      simp [splitFirst, hc, hr]

theorem splitHead_append_sep (sep : Char) (v s : List Char) :
    splitHead sep (v ++ sep :: s) = splitHead sep v := by
  obtain ⟨r, hr⟩ := splitFirst_append_sep sep v s
  simp [splitHead, hr]

/-! ### Agreement domain of the two comparators -/

/-- On version strings with no `+` and at most one `-`, both parsers
produce the same key: the repository's `split('-', 1)` tail and the
upload's `split('-')[1]` segment coincide, and the `+`-stripping is a
no-op. -/
theorem repoKey_eq_uploadKey (v : List Char) (hp : '+' ∉ v)
    (hd : v.count '-' ≤ 1) : repoKey v = uploadKey v := by
  have hclean : splitHead '+' v = v := splitHead_of_not_mem hp
  rcases hsf : splitFirst '-' v with _ | p
  · have hnd : '-' ∉ v := not_mem_of_splitFirst_eq_none hsf
    simp only [repoKey, uploadKey, parseVersionRepo, hsf, hclean,
      splitHead_of_not_mem hnd]
  · rcases p with ⟨b, r⟩
    obtain ⟨hs, hnb⟩ := splitFirst_some_spec hsf
    have hp1 : '+' ∉ b := fun hm => hp (hs ▸ List.mem_append_left _ hm)
    have hcnt : v.count '-' = b.count '-' + (r.count '-' + 1) := by
      rw [hs]; simp [List.count_append, List.count_cons]
    have hb0 : b.count '-' = 0 := List.count_eq_zero.mpr hnb
    have hr0 : r.count '-' = 0 := by omega
    have hnr : '-' ∉ r := List.count_eq_zero.mp hr0
    have hbase : splitHead '-' v = b := by simp [splitHead, hsf]
    simp only [repoKey, uploadKey, parseVersionRepo, hsf, hclean, hbase,
      splitHead_of_not_mem hp1, splitHead_of_not_mem hnr]

/-- Replacing the part after the first `+` does not change `splitHead '+'`,
so it does not change the upload parser's key. -/
theorem uploadKey_plus_indep (v s t : List Char) :
    uploadKey (v ++ '+' :: s) = uploadKey (v ++ '+' :: t) := by
  unfold uploadKey
  rw [splitHead_append_sep, splitHead_append_sep]

/-- With no `-` anywhere, the repository parser also ignores everything
after the first `+`. -/
theorem repoKey_plus_indep (v s t : List Char) (hv : '-' ∉ v)
    (hs : '-' ∉ s) (ht : '-' ∉ t) :
    repoKey (v ++ '+' :: s) = repoKey (v ++ '+' :: t) := by
  have hms : ('-' : Char) ∉ v ++ '+' :: s := by
    intro hm
    rcases List.mem_append.mp hm with h | h
    · exact hv h
    · rcases List.mem_cons.mp h with h | h
      · simp at h
      · exact hs h
  have hmt : ('-' : Char) ∉ v ++ '+' :: t := by
    intro hm
    rcases List.mem_append.mp hm with h | h
    · exact hv h
    · rcases List.mem_cons.mp h with h | h
      · simp at h
      · exact ht h
  unfold repoKey parseVersionRepo
  rw [splitFirst_eq_none hms, splitFirst_eq_none hmt]
  simp only
  rw [splitHead_append_sep, splitHead_append_sep]

/-! ### Claim theorems -/

/-- C8: `PackageRepository._compare_versions` is a total order on the
version strings where it is defined: `compare(a, a) = 0`,
`compare(b, a) = -compare(a, b)`, and `compare(a, b) ≤ 0` together with
`compare(b, c) ≤ 0` imply `compare(a, c) ≤ 0` (with `compare(a, c)`
defined). -/
theorem repoCompare_total_order (a b c : List Char) (x y : Int)
    (hab : repoCompareVersions a b = some x)
    (hbc : repoCompareVersions b c = some y) :
    repoCompareVersions a a = some 0 ∧
    repoCompareVersions b a = some (-x) ∧
    (x ≤ 0 → y ≤ 0 → ∃ z, repoCompareVersions a c = some z ∧ z ≤ 0) := by
  refine ⟨by simp [repoCompareVersions], ?_, ?_⟩
  · by_cases he : a = b
    · subst he
      have hx : x = 0 := by
        have h := hab
        simp [repoCompareVersions] at h
        omega
      simp [repoCompareVersions, hx]
    · obtain ⟨k1, k2, h1, h2, hx⟩ := repoCompare_some_of_ne he hab
      rw [repoCompare_eq_keyCmp h2 h1, hx, keyCmp_neg]
  · intro hx0 hy0
    by_cases hac : a = c
    · exact ⟨0, by simp [repoCompareVersions, hac], le_refl 0⟩
    · by_cases he1 : a = b
      · subst he1
        exact ⟨y, hbc, hy0⟩
      · by_cases he2 : b = c
        · subst he2
          exact ⟨x, hab, hx0⟩
        · obtain ⟨ka, kb, h1, h2, hx⟩ := repoCompare_some_of_ne he1 hab
          obtain ⟨kb', kc, h2', h3, hy⟩ := repoCompare_some_of_ne he2 hbc
          rw [h2] at h2'
          injection h2' with h2''
          subst h2''
          refine ⟨keyCmp ka kc, repoCompare_eq_keyCmp h1 h3, ?_⟩
          exact keyCmp_le_trans ka kb kc (hx ▸ hx0) (hy ▸ hy0)

/-- Witness for C8 at `a = "0.9.0"`, `b = "1.0.0-x"`, `c = "1.0.0"`. -/
theorem repoCompare_total_order_witness :
    repoCompareVersions "0.9.0".data "1.0.0-x".data = some (-1) ∧
    repoCompareVersions "1.0.0-x".data "1.0.0".data = some (-1) ∧
    (repoCompareVersions "0.9.0".data "0.9.0".data = some 0 ∧
     repoCompareVersions "1.0.0-x".data "0.9.0".data = some 1 ∧
     ((-1 : Int) ≤ 0 → (-1 : Int) ≤ 0 →
       ∃ z, repoCompareVersions "0.9.0".data "1.0.0".data = some z ∧ z ≤ 0)) :=
  ⟨by decide, by decide, by
    simpa using repoCompare_total_order "0.9.0".data "1.0.0-x".data
      "1.0.0".data (-1) (-1) (by decide) (by decide)⟩

/-- Counterexample for C3: on `'1.0.0-alpha+1'` vs `'1.0.0-alpha+2'` the
two `_compare_versions` methods are both defined but disagree — the
repository one keeps the `+` suffix inside the prerelease string, the
upload one strips it first. -/
theorem compare_versions_disagree_cex :
    repoCompareVersions "1.0.0-alpha+1".data "1.0.0-alpha+2".data = some (-1) ∧
    uploadCompareVersions "1.0.0-alpha+1".data "1.0.0-alpha+2".data = some 0 ∧
    repoCompareVersions "1.0.0-alpha+1".data "1.0.0-alpha+2".data ≠
      uploadCompareVersions "1.0.0-alpha+1".data "1.0.0-alpha+2".data := by
  refine ⟨by decide, by decide, by decide⟩

/-- C3 as amended: the two `_compare_versions` methods agree on every pair
of version strings that contain no `+` and at most one `-` (so that the
prerelease part carries no build metadata and no second dash); outside
that domain they can disagree. -/
theorem compare_versions_agree (v1 v2 : List Char)
    (h1p : '+' ∉ v1) (h1d : v1.count '-' ≤ 1)
    (h2p : '+' ∉ v2) (h2d : v2.count '-' ≤ 1) :
    uploadCompareVersions v1 v2 = repoCompareVersions v1 v2 := by
  unfold uploadCompareVersions repoCompareVersions
  rw [← repoKey_eq_uploadKey v1 h1p h1d, ← repoKey_eq_uploadKey v2 h2p h2d]
  by_cases he : v1 = v2
  · simp [he]
  · simp only [he, if_false]
    cases hk1 : repoKey v1 <;> cases hk2 : repoKey v2 <;>
      simp [uploadKeyCmp_eq_keyCmp]

/-- Witness for the amended C3 at `'1.0.0-alpha'` vs `'1.0.0'`. -/
theorem compare_versions_agree_witness :
    ('+' ∉ "1.0.0-alpha".data ∧ "1.0.0-alpha".data.count '-' ≤ 1 ∧
     '+' ∉ "1.0.0".data ∧ "1.0.0".data.count '-' ≤ 1) ∧
    uploadCompareVersions "1.0.0-alpha".data "1.0.0".data =
      repoCompareVersions "1.0.0-alpha".data "1.0.0".data :=
  ⟨⟨by decide, by decide, by decide, by decide⟩,
   compare_versions_agree "1.0.0-alpha".data "1.0.0".data
     (by decide) (by decide) (by decide) (by decide)⟩

/-- Counterexample for C4: with the prerelease version `v = '1.0.0-alpha'`
and build suffixes `'1'`, `'2'`, `PackageRepository._compare_versions`
does not return 0. -/
theorem build_metadata_cex :
    ¬ repoCompareVersions ("1.0.0-alpha".data ++ '+' :: "1".data)
        ("1.0.0-alpha".data ++ '+' :: "2".data) = some 0 := by
  decide

/-- C4 as amended: `UploadPackageUseCase._compare_versions` strips build
metadata from both sides before any comparison, so
`compare(v+'+'+s1, v+'+'+s2) = 0` whenever defined;
`PackageRepository._compare_versions` strips it only from the release
segment, so the same holds for it only when no `-` is involved — when `v`
has a prerelease suffix the build metadata stays part of the prerelease
string and can affect the result. -/
theorem build_metadata_stripped (v s1 s2 : List Char)
    (hu : (uploadKey (v ++ '+' :: s1)).isSome) :
    uploadCompareVersions (v ++ '+' :: s1) (v ++ '+' :: s2) = some 0 ∧
    ('-' ∉ v → '-' ∉ s1 → '-' ∉ s2 → (repoKey (v ++ '+' :: s1)).isSome →
      repoCompareVersions (v ++ '+' :: s1) (v ++ '+' :: s2) = some 0) := by
  constructor
  · by_cases he : v ++ '+' :: s1 = v ++ '+' :: s2
    · simp [uploadCompareVersions, he]
    · rcases hk : uploadKey (v ++ '+' :: s1) with _ | k
      · rw [hk] at hu; simp at hu
      · have hk2 : uploadKey (v ++ '+' :: s2) = some k := by
          rw [← uploadKey_plus_indep v s1 s2, hk]
        simp only [uploadCompareVersions, he, if_false, hk, hk2,
          uploadKeyCmp_eq_keyCmp, keyCmp_self]
  · intro hv hs1 hs2 hr
    by_cases he : v ++ '+' :: s1 = v ++ '+' :: s2
    · simp [repoCompareVersions, he]
    · rcases hk : repoKey (v ++ '+' :: s1) with _ | k
      · rw [hk] at hr; simp at hr
      · have hk2 : repoKey (v ++ '+' :: s2) = some k := by
          rw [← repoKey_plus_indep v s1 s2 hv hs1 hs2, hk]
        simp only [repoCompareVersions, he, if_false, hk, hk2, keyCmp_self]

/-- Witness for the amended C4 at `v = '1.0.0'`, `s1 = '1'`, `s2 = '2'`. -/
theorem build_metadata_stripped_witness :
    ((uploadKey ("1.0.0".data ++ '+' :: "1".data)).isSome ∧
     '-' ∉ "1.0.0".data ∧ '-' ∉ "1".data ∧ '-' ∉ "2".data ∧
     (repoKey ("1.0.0".data ++ '+' :: "1".data)).isSome) ∧
    uploadCompareVersions ("1.0.0".data ++ '+' :: "1".data)
      ("1.0.0".data ++ '+' :: "2".data) = some 0 ∧
    repoCompareVersions ("1.0.0".data ++ '+' :: "1".data)
      ("1.0.0".data ++ '+' :: "2".data) = some 0 := by
  refine ⟨⟨by decide, by decide, by decide, by decide, by decide⟩, ?_, ?_⟩
  · exact (build_metadata_stripped "1.0.0".data "1".data "2".data
      (by decide)).1
  · exact (build_metadata_stripped "1.0.0".data "1".data "2".data
      (by decide)).2 (by decide) (by decide) (by decide) (by decide)

/-- C1: evaluating the repository-hit path of
`ProxyPackageUseCase.get_package_version` on a stored package named
`'http'` whose version `'1.0.0'` has a real stored `archive_url`: the
returned dictionary carries the hardcoded
`'http://example.com/test_package-1.0.0.tar.gz'` archive URL and pubspec
name `'test_package'` instead of the stored values — the stored version is
not returned verbatim. -/
theorem get_package_version_hardcoded :
    getPackageVersionFromRepo
      ⟨"http",
       [⟨"1.0.0", "2023-01-01T00:00:00", [], [],
         some "https://pub.example.org/api/packages/http/versions/1.0.0/archive.tar.gz",
         some "abc123"⟩],
       some "1.0.0", none, none, none, true⟩ "1.0.0" =
      some ⟨"1.0.0", "2023-01-01T00:00:00.000Z",
        "http://example.com/test_package-1.0.0.tar.gz", "test_package",
        "1.0.0", [("sdk", ">=2.12.0 <4.0.0")]⟩ ∧
    "http://example.com/test_package-1.0.0.tar.gz" ≠
      "https://pub.example.org/api/packages/http/versions/1.0.0/archive.tar.gz" ∧
    "test_package" ≠ "http" := by
  refine ⟨by decide, by decide, by decide⟩

/-- Counterexample for C5: uploading version `'2.0.0'` to a package that
already exists with `is_private = False` (populated from upstream caching)
saves a package whose `is_private` is still `False`. -/
theorem upload_keeps_not_private_cex :
    (uploadExecute
      (some ⟨"foo", [⟨"1.0.0", "2023-01-01T00:00:00", [], [], none, none⟩],
        some "1.0.0", none, none, none, false⟩)
      "foo" "2.0.0" "http://localhost:5000/api/packages/foo/versions/2.0.0/archive.tar.gz"
      "deadbeef" "2024-01-01T00:00:00").map Package.is_private = some false := by
  decide

theorem uploadApplyVersions_is_private (p : Package) (v u s t : String) :
    (uploadApplyVersions p v u s t).is_private = p.is_private := by
  unfold uploadApplyVersions; split <;> rfl

theorem uploadApplyVersions_latest (p : Package) (v u s t : String) :
    (uploadApplyVersions p v u s t).latest_version = p.latest_version := by
  unfold uploadApplyVersions; split <;> rfl

/-- C5 as amended: `UploadPackageUseCase.execute` sets `is_private = True`
only when it creates the package; when the package already exists the flag
is left unchanged (so a package populated from upstream caching stays
non-private after an upload). -/
theorem upload_private_flag (existing : Option Package)
    (name version url sha now : String) (pkg' : Package)
    (h : uploadExecute existing name version url sha now = some pkg') :
    pkg'.is_private = (match existing with
      | none => true
      | some p => p.is_private) := by
  cases existing with
  | none =>
    simp only [uploadExecute, Option.some.injEq] at h
    subst h
    rfl
  | some p =>
    show pkg'.is_private = p.is_private
    simp only [uploadExecute] at h
    rw [uploadApplyVersions_latest] at h
    rcases hl : p.latest_version with _ | lv
    · rw [hl] at h; simp at h
    · rw [hl] at h
      dsimp only at h
      rcases hc : uploadCompareVersions version.data lv.data with _ | c
      · rw [hc] at h; simp at h
      · rw [hc] at h
        dsimp only at h
        by_cases hgt : c > 0
        · rw [if_pos hgt] at h
          injection h with h
          subst h
          exact uploadApplyVersions_is_private p version url sha now
        · rw [if_neg hgt] at h
          injection h with h
          subst h
          exact uploadApplyVersions_is_private p version url sha now

/-- Witness for the amended C5: uploading to an existing non-private
package leaves it non-private. -/
theorem upload_private_flag_witness :
    uploadExecute
      (some ⟨"bar", [⟨"1.0.0", "2023-01-01T00:00:00", [], [], none, none⟩],
        some "1.0.0", none, none, none, false⟩)
      "bar" "1.1.0" "http://localhost:5000/x" "cafe" "2024-02-02T00:00:00" =
      some ⟨"bar",
        [⟨"1.0.0", "2023-01-01T00:00:00", [], [], none, none⟩,
         ⟨"1.1.0", "2024-02-02T00:00:00", [], [], some "http://localhost:5000/x",
          some "cafe"⟩],
        some "1.1.0", none, none, none, false⟩ ∧
    (⟨"bar",
        [⟨"1.0.0", "2023-01-01T00:00:00", [], [], none, none⟩,
         ⟨"1.1.0", "2024-02-02T00:00:00", [], [], some "http://localhost:5000/x",
          some "cafe"⟩],
        some "1.1.0", none, none, none, false⟩ : Package).is_private =
      (match (some (⟨"bar",
        [⟨"1.0.0", "2023-01-01T00:00:00", [], [], none, none⟩],
        some "1.0.0", none, none, none, false⟩ : Package)) with
      | none => true
      | some p => p.is_private) := by
  refine ⟨by decide, ?_⟩
  exact upload_private_flag
    (some ⟨"bar", [⟨"1.0.0", "2023-01-01T00:00:00", [], [], none, none⟩],
      some "1.0.0", none, none, none, false⟩)
    "bar" "1.1.0" "http://localhost:5000/x" "cafe" "2024-02-02T00:00:00"
    ⟨"bar",
      [⟨"1.0.0", "2023-01-01T00:00:00", [], [], none, none⟩,
       ⟨"1.1.0", "2024-02-02T00:00:00", [], [], some "http://localhost:5000/x",
        some "cafe"⟩],
      some "1.1.0", none, none, none, false⟩ (by decide)

/-! ### Version-set uniqueness -/

theorem map_version_updateFirstVersion (n : String) (d : UpstreamVersionDetail)
    (vs : List PackageVersion) :
    (updateFirstVersion n d vs).map (fun v => v.version) =
      vs.map (fun v => v.version) := by
  induction vs with
  | nil => rfl
  | cons v rest ih =>
    unfold updateFirstVersion
    split
    · rfl
    · simp [ih]

theorem map_version_uploadUpdateFirst (version url sha now : String)
    (vs : List PackageVersion) :
    (uploadUpdateFirst version url sha now vs).map (fun v => v.version) =
      vs.map (fun v => v.version) := by
  induction vs with
  | nil => rfl
  | cons v rest ih =>
    unfold uploadUpdateFirst
    split
    · rfl
    · simp [ih]

/-- Appending a version whose string is absent preserves uniqueness. -/
theorem nodup_append_fresh (vs : List PackageVersion) (w : PackageVersion)
    (hnd : (vs.map (fun v => v.version)).Nodup)
    (hnew : vs.any (fun v => v.version = w.version) = false) :
    ((vs ++ [w]).map (fun v => v.version)).Nodup := by
  have hmem : w.version ∉ vs.map (fun v => v.version) := by
    intro hm
    obtain ⟨v, hv, he⟩ := List.mem_map.mp hm
    have := List.any_eq_false.mp hnew v hv
    simp [he] at this
  simp only [List.map_append, List.map_cons, List.map_nil]
  rw [List.nodup_append]
  refine ⟨hnd, List.nodup_singleton _, ?_⟩
  intro a ha hb
  simp only [List.mem_singleton] at hb
  exact hmem (hb ▸ ha)

theorem savePackageInfoLoop_nodup (vis : List UpstreamVersionInfo) :
    ∀ (P pkg' : Package),
    (P.versions.map (fun v => v.version)).Nodup →
    savePackageInfoLoop P vis = some pkg' →
    (pkg'.versions.map (fun v => v.version)).Nodup := by
  induction vis with
  | nil =>
    intro P pkg' hnd h
    unfold savePackageInfoLoop at h
    injection h with h
    subst h
    exact hnd
  | cons vi rest ih =>
    intro P pkg' hnd h
    unfold savePackageInfoLoop at h
    by_cases hex : P.versions.any (fun v => v.version = vi.version)
    · rw [if_pos hex] at h
      exact ih P pkg' hnd h
    · rw [if_neg hex] at h
      dsimp only at h
      have hnd' : (((P.versions ++
          [PackageVersion.mk vi.version vi.published vi.pubspec_dependencies
            vi.pubspec_environment vi.archive_url vi.archive_sha256]).map
          (fun v => v.version))).Nodup :=
        nodup_append_fresh P.versions
          (PackageVersion.mk vi.version vi.published vi.pubspec_dependencies
            vi.pubspec_environment vi.archive_url vi.archive_sha256)
          hnd (by simpa using hex)
      rcases hl : P.latest_version with _ | lv
      · rw [hl] at h
        dsimp only at h
        exact ih _ pkg' hnd' h
      · rw [hl] at h
        dsimp only at h
        by_cases he : lv = ""
        · rw [if_pos he] at h
          exact ih _ pkg' hnd' h
        · rw [if_neg he] at h
          rcases hc : repoCompareVersions vi.version.data lv.data with _ | c
          · rw [hc] at h; simp at h
          · rw [hc] at h
            dsimp only at h
            by_cases hgt : c > 0
            · rw [if_pos hgt] at h
              exact ih _ pkg' hnd' h
            · rw [if_neg hgt] at h
              exact ih _ pkg' hnd' h

theorem savePackageVersionApply_nodup (P : Package) (vn : String)
    (d : UpstreamVersionDetail)
    (hnd : (P.versions.map (fun v => v.version)).Nodup) :
    ((savePackageVersionApply P vn d).versions.map (fun v => v.version)).Nodup := by
  unfold savePackageVersionApply
  by_cases hex : P.versions.any (fun v => v.version = vn)
  · rw [if_pos hex]
    simpa [map_version_updateFirstVersion] using hnd
  · rw [if_neg hex]
    exact nodup_append_fresh _ _ hnd (by simpa using hex)

theorem uploadApplyVersions_nodup (P : Package) (version url sha now : String)
    (hnd : (P.versions.map (fun v => v.version)).Nodup) :
    ((uploadApplyVersions P version url sha now).versions.map
      (fun v => v.version)).Nodup := by
  unfold uploadApplyVersions
  by_cases hex : P.versions.any (fun v => v.version = version)
  · rw [if_pos hex]
    simpa [map_version_uploadUpdateFirst] using hnd
  · rw [if_neg hex]
    exact nodup_append_fresh _ _ hnd (by simpa using hex)

/-- C9: every mutation path that appends a version — `save_package_info`,
`save_package_version` and the upload `execute` — preserves uniqueness of
version strings within a package's versions list: starting from a package
with pairwise-distinct versions (or from no package), the saved package
has pairwise-distinct versions. -/
theorem version_uniqueness_preserved :
    (∀ (existing : Option Package) (name : String)
      (info : UpstreamPackageInfo) (pkg' : Package),
      (∀ p, existing = some p → (p.versions.map (fun v => v.version)).Nodup) →
      savePackageInfo existing name info = some pkg' →
      (pkg'.versions.map (fun v => v.version)).Nodup) ∧
    (∀ (existing : Option Package) (name vn : String)
      (d : UpstreamVersionDetail) (pkg' : Package),
      (∀ p, existing = some p → (p.versions.map (fun v => v.version)).Nodup) →
      savePackageVersion existing name vn d = some pkg' →
      (pkg'.versions.map (fun v => v.version)).Nodup) ∧
    (∀ (existing : Option Package) (name version url sha now : String)
      (pkg' : Package),
      (∀ p, existing = some p → (p.versions.map (fun v => v.version)).Nodup) →
      uploadExecute existing name version url sha now = some pkg' →
      (pkg'.versions.map (fun v => v.version)).Nodup) := by
  refine ⟨?_, ?_, ?_⟩
  · intro existing name info pkg' hex h
    unfold savePackageInfo at h
    cases existing with
    | none =>
      dsimp only at h
      exact savePackageInfoLoop_nodup info.versions _ pkg' (by simp) h
    | some p =>
      dsimp only at h
      exact savePackageInfoLoop_nodup info.versions
        { p with
          latest_version := info.latest_version
          description := info.description
          homepage := info.homepage
          repository := info.repository }
        pkg' (hex p rfl) h
  · intro existing name vn d pkg' hex h
    unfold savePackageVersion at h
    have hbase : ∀ (base : Package),
        (base.versions.map (fun v => v.version)).Nodup →
        (match (savePackageVersionApply base vn d).latest_version with
          | none => some { savePackageVersionApply base vn d with
              latest_version := some vn }
          | some lv =>
            if lv = "" then some { savePackageVersionApply base vn d with
              latest_version := some vn }
            else
              match repoCompareVersions vn.data lv.data with
              | none => none
              | some c =>
                if c > 0 then some { savePackageVersionApply base vn d with
                  latest_version := some vn }
                else some (savePackageVersionApply base vn d)) = some pkg' →
        (pkg'.versions.map (fun v => v.version)).Nodup := by
      intro base hnd hm
      have hnd' := savePackageVersionApply_nodup base vn d hnd
      rcases hl : (savePackageVersionApply base vn d).latest_version with _ | lv
      · rw [hl] at hm
        injection hm with hm
        subst hm
        exact hnd'
      · rw [hl] at hm
        dsimp only at hm
        by_cases he : lv = ""
        · rw [if_pos he] at hm
          injection hm with hm
          subst hm
          exact hnd'
        · rw [if_neg he] at hm
          rcases hc : repoCompareVersions vn.data lv.data with _ | c
          · rw [hc] at hm; simp at hm
          · rw [hc] at hm
            dsimp only at hm
            by_cases hgt : c > 0
            · rw [if_pos hgt] at hm
              injection hm with hm
              subst hm
              exact hnd'
            · rw [if_neg hgt] at hm
              injection hm with hm
              subst hm
              exact hnd'
    cases existing with
    | none => exact hbase ⟨name, [], some vn, none, none, none, false⟩ (by simp) h
    | some p => exact hbase p (hex p rfl) h
  · intro existing name version url sha now pkg' hex h
    cases existing with
    | none =>
      simp only [uploadExecute, Option.some.injEq] at h
      subst h
      simp
    | some p =>
      simp only [uploadExecute] at h
      have hnd' := uploadApplyVersions_nodup p version url sha now
        (hex p rfl)
      rcases hl : (uploadApplyVersions p version url sha now).latest_version
        with _ | lv
      · rw [hl] at h; simp at h
      · rw [hl] at h
        dsimp only at h
        rcases hc : uploadCompareVersions version.data lv.data with _ | c
        · rw [hc] at h; simp at h
        · rw [hc] at h
          dsimp only at h
          by_cases hgt : c > 0
          · rw [if_pos hgt] at h
            injection h with h
            subst h
            exact hnd'
          · rw [if_neg hgt] at h
            injection h with h
            subst h
            exact hnd'

/-- Witness for C9: each of the three operations applied at a concrete
package with distinct versions yields a package with distinct versions. -/
theorem version_uniqueness_preserved_witness :
    ((∀ p, (some (⟨"w", [⟨"1.0.0", "t", [], [], none, none⟩],
        some "1.0.0", none, none, none, false⟩ : Package)) = some p →
      (p.versions.map (fun v => v.version)).Nodup) ∧
     savePackageInfo
       (some ⟨"w", [⟨"1.0.0", "t", [], [], none, none⟩],
         some "1.0.0", none, none, none, false⟩) "w"
       ⟨some "1.0.0", none, none, none, [⟨"1.0.0", "t", [], [], none, none⟩]⟩ =
       some ⟨"w", [⟨"1.0.0", "t", [], [], none, none⟩],
         some "1.0.0", none, none, none, false⟩) ∧
    ((⟨"w", [⟨"1.0.0", "t", [], [], none, none⟩],
        some "1.0.0", none, none, none, false⟩ : Package).versions.map
      (fun v => v.version)).Nodup := by
  refine ⟨⟨?_, by decide⟩, ?_⟩
  · intro p hp
    injection hp with hp
    subst hp
    decide
  · exact version_uniqueness_preserved.1
      (some ⟨"w", [⟨"1.0.0", "t", [], [], none, none⟩],
        some "1.0.0", none, none, none, false⟩) "w"
      ⟨some "1.0.0", none, none, none, [⟨"1.0.0", "t", [], [], none, none⟩]⟩
      ⟨"w", [⟨"1.0.0", "t", [], [], none, none⟩],
        some "1.0.0", none, none, none, false⟩
      (fun p hp => by injection hp with hp; subst hp; decide)
      (by decide)

/-! ### latest_version behaviour of save_package_info -/

/-- Counterexample for C2: a package whose recorded `latest_version` is
`'2.0.0'` receives an upstream payload stating `latest.version = '1.0.0'`
whose only version is already present; `save_package_info` overwrites
`latest_version` with the payload value (line 191) and the version loop
never fires, so the stored `latest_version` becomes `'1.0.0'`, which
compares strictly below the previously recorded `'2.0.0'`. -/
theorem save_package_info_regress_cex :
    (savePackageInfo
      (some ⟨"foo",
        [⟨"1.0.0", "t0", [], [], none, none⟩,
         ⟨"2.0.0", "t0", [], [], none, none⟩],
        some "2.0.0", none, none, none, true⟩)
      "foo"
      ⟨some "1.0.0", none, none, none,
        [⟨"1.0.0", "t1", [], [], none, none⟩]⟩).map Package.latest_version =
      some (some "1.0.0") ∧
    repoCompareVersions "1.0.0".data "2.0.0".data = some (-1) := by
  refine ⟨by decide, by decide⟩

theorem repoKey_nil : repoKey ([] : List Char) = none := by decide

/-- The loop of `save_package_info` only moves `latest_version` up relative
to the payload's stated latest: if the current `latest_version` compares
`≥ l0`, so does the final one. -/
theorem savePackageInfoLoop_latest_ge (l0 : String)
    (vis : List UpstreamVersionInfo) :
    ∀ (P pkg' : Package),
    (∃ l c, P.latest_version = some l ∧ l ≠ "" ∧
      repoCompareVersions l.data l0.data = some c ∧ 0 ≤ c) →
    savePackageInfoLoop P vis = some pkg' →
    ∃ l c, pkg'.latest_version = some l ∧ l ≠ "" ∧
      repoCompareVersions l.data l0.data = some c ∧ 0 ≤ c := by
  induction vis with
  | nil =>
    intro P pkg' hinv h
    unfold savePackageInfoLoop at h
    injection h with h
    subst h
    exact hinv
  | cons vi rest ih =>
    intro P pkg' hinv h
    obtain ⟨l, c, hPl, hlne, hcmp, hc0⟩ := hinv
    unfold savePackageInfoLoop at h
    by_cases hex : P.versions.any (fun v => v.version = vi.version)
    · rw [if_pos hex] at h
      exact ih P pkg' ⟨l, c, hPl, hlne, hcmp, hc0⟩ h
    · rw [if_neg hex] at h
      dsimp only at h
      rw [hPl] at h
      dsimp only at h
      rw [if_neg hlne] at h
      rcases hc2 : repoCompareVersions vi.version.data l.data with _ | c2
      · rw [hc2] at h; simp at h
      · rw [hc2] at h
        dsimp only at h
        by_cases hgt : c2 > 0
        · rw [if_pos hgt] at h
          have hne2 : vi.version.data ≠ l.data := by
            intro he
            rw [he] at hc2
            have : c2 = 0 := by
              have h0 : repoCompareVersions l.data l.data = some 0 := by
                simp [repoCompareVersions]
              rw [h0] at hc2
              injection hc2 with hc2
              omega
            omega
          obtain ⟨kv, kl, hkv, hkl, hc2eq⟩ := repoCompare_some_of_ne hne2 hc2
          have hvne : vi.version ≠ "" := by
            intro he
            rw [he] at hkv
            rw [show ("" : String).data = ([] : List Char) from rfl,
              repoKey_nil] at hkv
            exact Option.noConfusion hkv
          have hnew : ∃ c3, repoCompareVersions vi.version.data l0.data =
              some c3 ∧ 0 ≤ c3 := by
            by_cases hvl0 : vi.version.data = l0.data
            · exact ⟨0, by simp [repoCompareVersions, hvl0], le_refl 0⟩
            · by_cases hll0 : l.data = l0.data
              · refine ⟨c2, ?_, by omega⟩
                rw [← hll0]
                exact hc2
              · obtain ⟨kl', k0, hkl', hk0, hceq⟩ :=
                  repoCompare_some_of_ne hll0 hcmp
                rw [hkl] at hkl'
                injection hkl' with hkl''
                subst hkl''
                refine ⟨keyCmp kv k0, repoCompare_eq_keyCmp hkv hk0, ?_⟩
                have h1 : keyCmp kl kv ≤ 0 := by
                  rw [keyCmp_neg kv kl]
                  omega
                have h2 : keyCmp k0 kl ≤ 0 := by
                  rw [keyCmp_neg kl k0]
                  omega
                have h3 := keyCmp_le_trans k0 kl kv h2 h1
                rw [keyCmp_neg kv k0] at h3
                omega
          obtain ⟨c3, hc3, hc30⟩ := hnew
          exact ih _ pkg' ⟨vi.version, c3, rfl, hvne, hc3, hc30⟩ h
        · rw [if_neg hgt] at h
          exact ih _ pkg' ⟨l, c, rfl, hlne, hcmp, hc0⟩ h

/-- C2 as amended: `save_package_info` first overwrites `latest_version`
with the payload's `latest.version` and then only moves it up for newly
appended versions, so the stored `latest_version` compares `≥` the
*payload's* stated latest (when that is a non-empty string) — but it can
regress below the `latest_version` recorded before the call, as the
counterexample shows. -/
theorem save_package_info_latest_ge_payload
    (pkg : Package) (name : String) (info : UpstreamPackageInfo)
    (l0 : String) (pkg' : Package)
    (hl0 : info.latest_version = some l0) (hne : l0 ≠ "")
    (hsave : savePackageInfo (some pkg) name info = some pkg') :
    ∃ l c, pkg'.latest_version = some l ∧
      repoCompareVersions l.data l0.data = some c ∧ 0 ≤ c := by
  unfold savePackageInfo at hsave
  dsimp only at hsave
  obtain ⟨l, c, hl, hlne, hcmp, hc0⟩ :=
    savePackageInfoLoop_latest_ge l0 info.versions
      { pkg with
        latest_version := info.latest_version
        description := info.description
        homepage := info.homepage
        repository := info.repository }
      pkg'
      ⟨l0, 0, by simpa using hl0, hne, by simp [repoCompareVersions],
        le_refl 0⟩
      hsave
  exact ⟨l, c, hl, hcmp, hc0⟩

/-- Witness for the amended C2: merging a payload with stated latest
`'1.5.0'` and a new version `'2.0.0'` into a package recorded at `'1.0.0'`
stores latest `'2.0.0'`, which compares `≥ '1.5.0'`. -/
theorem save_package_info_latest_ge_payload_witness :
    ((⟨some "1.5.0", none, none, none,
        [⟨"2.0.0", "t1", [], [], none, none⟩]⟩ :
        UpstreamPackageInfo).latest_version = some "1.5.0" ∧
     "1.5.0" ≠ "" ∧
     savePackageInfo
       (some ⟨"foo", [⟨"1.0.0", "t0", [], [], none, none⟩],
         some "1.0.0", none, none, none, false⟩)
       "foo"
       ⟨some "1.5.0", none, none, none,
         [⟨"2.0.0", "t1", [], [], none, none⟩]⟩ =
       some ⟨"foo",
         [⟨"1.0.0", "t0", [], [], none, none⟩,
          ⟨"2.0.0", "t1", [], [], none, none⟩],
         some "2.0.0", none, none, none, false⟩) ∧
    (∃ l c, (⟨"foo",
         [⟨"1.0.0", "t0", [], [], none, none⟩,
          ⟨"2.0.0", "t1", [], [], none, none⟩],
         some "2.0.0", none, none, none, false⟩ : Package).latest_version =
        some l ∧
      repoCompareVersions l.data "1.5.0".data = some c ∧ 0 ≤ c) := by
  refine ⟨⟨by decide, by decide, by decide⟩, ?_⟩
  exact save_package_info_latest_ge_payload
    ⟨"foo", [⟨"1.0.0", "t0", [], [], none, none⟩],
      some "1.0.0", none, none, none, false⟩
    "foo"
    ⟨some "1.5.0", none, none, none,
      [⟨"2.0.0", "t1", [], [], none, none⟩]⟩
    "1.5.0"
    ⟨"foo",
      [⟨"1.0.0", "t0", [], [], none, none⟩,
       ⟨"2.0.0", "t1", [], [], none, none⟩],
      some "2.0.0", none, none, none, false⟩
    (by decide) (by decide) (by decide)

/-! ### The list/search use case -/

theorem lawful_le_trans {cmp : α → α → Int} (hl : LawfulCmp cmp) {a b c : α}
    (h1 : cmp a b ≤ 0) (h2 : cmp b c ≤ 0) : cmp a c ≤ 0 := by
  rcases hl.tri a b with h | h | h
  · rcases hl.tri b c with h' | h' | h'
    · have := hl.lt_trans a b c h h'
      omega
    · rw [hl.eq_of b c h'] at h
      omega
    · omega
  · rw [hl.eq_of a b h]
    exact h2
  · omega

instance : IsTotal ListEntry entryLe :=
  ⟨fun a b => by
    unfold entryLe
    rw [pyStrCmp_eq_lexCmp, pyStrCmp_eq_lexCmp]
    have hneg := lexCmp_neg chrCmp_lawful a.name.data b.name.data
    rcases lexCmp_tri chrCmp_lawful a.name.data b.name.data with h | h | h
    · left; omega
    · left; omega
    · right; omega⟩

instance : IsTrans ListEntry entryLe :=
  ⟨fun a b c h1 h2 => by
    unfold entryLe at h1 h2 ⊢
    rw [pyStrCmp_eq_lexCmp] at h1 h2 ⊢
    exact lawful_le_trans (lexCmp_lawful chrCmp_lawful) h1 h2⟩

/-- C6: `ListPackagesUseCase.execute` returns the slice
`[(page-1)*page_size, page*page_size)` of the name-ascending sorted merged
list; `total` is the merged list's size; `pages` is
`(total + page_size - 1) / page_size`, which is exactly `⌈total /
page_size⌉` (characterized by `total ≤ pages*page_size <
total + page_size`); a page past the end yields an empty `packages` list
with the same `total` and `pages` as the in-range request for page 1. -/
theorem list_execute_pagination (priv : List ListEntry)
    (resp : Option (List UpstreamSearchEntry)) (page page_size : Nat)
    (hp : 1 ≤ page) (hs : 1 ≤ page_size) :
    (listExecute priv resp page page_size).packages =
      ((List.insertionSort entryLe (mergedList priv resp)).drop
        ((page - 1) * page_size)).take page_size ∧
    List.Sorted entryLe (List.insertionSort entryLe (mergedList priv resp)) ∧
    (List.insertionSort entryLe (mergedList priv resp)).Perm
      (mergedList priv resp) ∧
    (listExecute priv resp page page_size).total =
      (mergedList priv resp).length ∧
    (listExecute priv resp page page_size).pages =
      ((mergedList priv resp).length + page_size - 1) / page_size ∧
    (listExecute priv resp page page_size).total ≤
      (listExecute priv resp page page_size).pages * page_size ∧
    (listExecute priv resp page page_size).pages * page_size <
      (listExecute priv resp page page_size).total + page_size ∧
    (page > (listExecute priv resp page page_size).pages →
      (listExecute priv resp page page_size).packages = []) ∧
    (listExecute priv resp page page_size).total =
      (listExecute priv resp 1 page_size).total ∧
    (listExecute priv resp page page_size).pages =
      (listExecute priv resp 1 page_size).pages := by
  have key : ∀ n s : Nat, 1 ≤ s →
      n ≤ ((n + s - 1) / s) * s ∧ ((n + s - 1) / s) * s < n + s := by
    intro n s hs1
    have h1 : (n + s - 1) / s * s ≤ n + s - 1 := Nat.div_mul_le_self _ _
    have h2 : n + s - 1 < s * ((n + s - 1) / s + 1) :=
      Nat.lt_mul_div_succ _ (show 0 < s by omega)
    rw [Nat.mul_succ, Nat.mul_comm s ((n + s - 1) / s)] at h2
    constructor <;> omega
  refine ⟨rfl, List.sorted_insertionSort entryLe _,
    List.perm_insertionSort entryLe _, rfl, rfl,
    (key (mergedList priv resp).length page_size hs).1,
    (key (mergedList priv resp).length page_size hs).2, ?_, rfl, rfl⟩
  intro hpg
  show ((List.insertionSort entryLe (mergedList priv resp)).drop
      ((page - 1) * page_size)).take page_size = []
  have hlen : (List.insertionSort entryLe (mergedList priv resp)).length =
      (mergedList priv resp).length :=
    (List.perm_insertionSort entryLe (mergedList priv resp)).length_eq
  have hpg' : ((mergedList priv resp).length + page_size - 1) / page_size ≤
      page - 1 := by
    have : (listExecute priv resp page page_size).pages =
        ((mergedList priv resp).length + page_size - 1) / page_size := rfl
    omega
  have h2 : (((mergedList priv resp).length + page_size - 1) / page_size) *
      page_size ≤ (page - 1) * page_size :=
    Nat.mul_le_mul_right page_size hpg'
  have h3 := (key (mergedList priv resp).length page_size hs).1
  rw [List.drop_eq_nil_of_le (by omega)]
  simp

/-- Witness for C6 at a tiny concrete catalog. -/
theorem list_execute_pagination_witness :
    ((1 : Nat) ≤ 2 ∧ (1 : Nat) ≤ 1) ∧
    ((listExecute [⟨"a", some "1.0.0", none, none, none, none, true⟩]
        (some [⟨some "b"⟩]) 2 1).packages =
      ((List.insertionSort entryLe (mergedList
          [⟨"a", some "1.0.0", none, none, none, none, true⟩]
          (some [⟨some "b"⟩]))).drop ((2 - 1) * 1)).take 1 ∧
     (listExecute [⟨"a", some "1.0.0", none, none, none, none, true⟩]
        (some [⟨some "b"⟩]) 2 1).total = 2 ∧
     (listExecute [⟨"a", some "1.0.0", none, none, none, none, true⟩]
        (some [⟨some "b"⟩]) 2 1).pages = 2) := by
  refine ⟨⟨by decide, by decide⟩, ?_, by decide, by decide⟩
  exact (list_execute_pagination
    [⟨"a", some "1.0.0", none, none, none, none, true⟩]
    (some [⟨some "b"⟩]) 2 1 (by decide) (by decide)).1

theorem filter_name_eq_of_nodup (n : String) :
    ∀ (l : List ListEntry) (e : ListEntry),
    (l.map (fun p => p.name)).Nodup → e ∈ l → e.name = n →
    l.filter (fun p => p.name = n) = [e] := by
  intro l
  induction l with
  | nil => intro e _ he _; simp at he
  | cons p rest ih =>
    intro e hnd he hen
    simp only [List.map_cons, List.nodup_cons] at hnd
    rcases List.mem_cons.mp he with rfl | he'
    · rw [List.filter_cons_of_pos (by simp [hen])]
      have hrest : rest.filter (fun q => q.name = n) = [] := by
        rw [List.filter_eq_nil_iff]
        intro a ha
        simp only [decide_eq_true_eq]
        intro han
        exact hnd.1 (List.mem_map.mpr ⟨a, ha, by rw [han, hen]⟩)
      rw [hrest]
    · have hpn : ¬ p.name = n := by
        intro hpn
        exact hnd.1 (List.mem_map.mpr ⟨e, he', by rw [hen, hpn]⟩)
      rw [List.filter_cons_of_neg (by simpa using hpn)]
      exact ih e hnd.2 he' hen

/-- C7: when the private catalog contains an entry named `n` (names are
pairwise distinct in the repository listing) and the upstream search
response also contains a package named `n`, the merged list contains
exactly one entry named `n` and it is the private one. -/
theorem merged_private_priority (priv : List ListEntry)
    (resp : List UpstreamSearchEntry) (n : String) (e : ListEntry)
    (hnd : (priv.map (fun p => p.name)).Nodup)
    (he : e ∈ priv) (hen : e.name = n)
    (_hup : ∃ u ∈ resp, u.package = some n) :
    (mergedList priv (some resp)).filter (fun p => p.name = n) = [e] := by
  unfold mergedList
  rw [List.filter_append]
  rw [filter_name_eq_of_nodup n priv e hnd he hen]
  have hupf : (resp.filterMap
      (upstreamToEntry (priv.map (fun p => p.name)))).filter
      (fun p => p.name = n) = [] := by
    rw [List.filter_eq_nil_iff]
    intro a ha
    simp only [decide_eq_true_eq]
    intro han
    obtain ⟨u, hu, hmap⟩ := List.mem_filterMap.mp ha
    unfold upstreamToEntry at hmap
    rcases hpk : u.package with _ | pn
    · rw [hpk] at hmap; exact Option.noConfusion hmap
    · rw [hpk] at hmap
      dsimp only at hmap
      by_cases h1 : pn = ""
      · rw [if_pos h1] at hmap; exact Option.noConfusion hmap
      · rw [if_neg h1] at hmap
        by_cases h2 : pn ∈ priv.map (fun p => p.name)
        · rw [if_pos h2] at hmap; exact Option.noConfusion hmap
        · rw [if_neg h2] at hmap
          injection hmap with hmap
          subst hmap
          exact h2 (by
            rw [show pn = n from han]
            exact List.mem_map.mpr ⟨e, he, hen⟩)
  rw [hupf]
  rfl

/-- Witness for C7: private `'http'` beats the upstream `'http'` hit. -/
theorem merged_private_priority_witness :
    (([⟨"http", some "1.0.0", none, none, none, none, true⟩] :
        List ListEntry).map (fun p => p.name)).Nodup ∧
    (⟨"http", some "1.0.0", none, none, none, none, true⟩ : ListEntry) ∈
      ([⟨"http", some "1.0.0", none, none, none, none, true⟩] :
        List ListEntry) ∧
    (⟨"http", some "1.0.0", none, none, none, none, true⟩ :
      ListEntry).name = "http" ∧
    (∃ u ∈ ([⟨some "http"⟩, ⟨none⟩] : List UpstreamSearchEntry),
      u.package = some "http") ∧
    (mergedList [⟨"http", some "1.0.0", none, none, none, none, true⟩]
        (some [⟨some "http"⟩, ⟨none⟩])).filter (fun p => p.name = "http") =
      [⟨"http", some "1.0.0", none, none, none, none, true⟩] := by
  refine ⟨by decide, by decide, by decide,
    ⟨⟨some "http"⟩, by decide, rfl⟩, ?_⟩
  exact merged_private_priority
    [⟨"http", some "1.0.0", none, none, none, none, true⟩]
    [⟨some "http"⟩, ⟨none⟩] "http"
    ⟨"http", some "1.0.0", none, none, none, none, true⟩
    (by decide) (by decide) (by decide)
    ⟨⟨some "http"⟩, by decide, rfl⟩

theorem upstreamToEntry_package_none (names : List String)
    (u : UpstreamSearchEntry) (h : u.package = none) :
    upstreamToEntry names u = none := by
  unfold upstreamToEntry
  rw [h]

/-- C10: every upstream-derived entry of the merged list carries the fixed
placeholder fields (`latest_version = 'latest'`, description
`'Package from pub.dev'`, `is_private = False`, homepage
`'https://pub.dev/packages/' + name`, `repository = None`), and upstream
result entries lacking a `'package'` key are silently dropped: removing
them from the response does not change the merged list. -/
theorem upstream_entry_placeholders (priv : List ListEntry)
    (resp : List UpstreamSearchEntry) :
    (∃ up, mergedList priv (some resp) = priv ++ up ∧
      ∀ e ∈ up, e.latest_version = some "latest" ∧
        e.description = some "Package from pub.dev" ∧ e.is_private = false ∧
        e.homepage = some ("https://pub.dev/packages/" ++ e.name) ∧
        e.repository = none) ∧
    mergedList priv (some (resp.filter (fun u => u.package.isSome))) =
      mergedList priv (some resp) := by
  constructor
  · refine ⟨_, rfl, ?_⟩
    intro e hme
    obtain ⟨u, hu, hmap⟩ := List.mem_filterMap.mp hme
    unfold upstreamToEntry at hmap
    rcases hpk : u.package with _ | pn
    · rw [hpk] at hmap; exact Option.noConfusion hmap
    · rw [hpk] at hmap
      dsimp only at hmap
      by_cases h1 : pn = ""
      · rw [if_pos h1] at hmap; exact Option.noConfusion hmap
      · rw [if_neg h1] at hmap
        by_cases h2 : pn ∈ priv.map (fun p => p.name)
        · rw [if_pos h2] at hmap; exact Option.noConfusion hmap
        · rw [if_neg h2] at hmap
          injection hmap with hmap
          subst hmap
          exact ⟨rfl, rfl, rfl, rfl, rfl⟩
  · unfold mergedList
    have hfm : ∀ (l : List UpstreamSearchEntry),
        (l.filter (fun u => u.package.isSome)).filterMap
          (upstreamToEntry (priv.map (fun p => p.name))) =
        l.filterMap (upstreamToEntry (priv.map (fun p => p.name))) := by
      intro l
      induction l with
      | nil => rfl
      | cons u rest ih =>
        rcases hpk : u.package with _ | pn
        · rw [List.filter_cons_of_neg (by simp [hpk])]
          rw [List.filterMap_cons,
            upstreamToEntry_package_none _ u hpk, ih]
        · rw [List.filter_cons_of_pos (by simp [hpk])]
          rw [List.filterMap_cons, List.filterMap_cons, ih]
    dsimp only
    rw [hfm]

/-- Witness for C10 at a concrete response containing an entry without a
`'package'` key. -/
theorem upstream_entry_placeholders_witness :
    (∃ up, mergedList [] (some ([⟨some "x"⟩, ⟨none⟩] :
        List UpstreamSearchEntry)) = [] ++ up ∧
      ∀ e ∈ up, e.latest_version = some "latest" ∧
        e.description = some "Package from pub.dev" ∧ e.is_private = false ∧
        e.homepage = some ("https://pub.dev/packages/" ++ e.name) ∧
        e.repository = none) ∧
    mergedList [] (some (([⟨some "x"⟩, ⟨none⟩] :
        List UpstreamSearchEntry).filter (fun u => u.package.isSome))) =
      mergedList [] (some ([⟨some "x"⟩, ⟨none⟩] :
        List UpstreamSearchEntry)) :=
  upstream_entry_placeholders [] [⟨some "x"⟩, ⟨none⟩]

example : repoCompareVersions "1.0.0".data "2.0.0".data = some (-1) := by decide
example : repoCompareVersions "1.0.0+1".data "1.0.0+2".data = some 0 := by decide
example : repoCompareVersions "1.0.0-alpha".data "1.0.0".data = some (-1) := by decide
example : repoCompareVersions "1.0.0-alpha".data "1.0.0-beta".data = some (-1) := by decide
example : repoCompareVersions "1.0.0-alpha+1".data "1.0.0-alpha+2".data = some (-1) := by decide
example : uploadCompareVersions "1.0.0-alpha+1".data "1.0.0-alpha+2".data = some 0 := by decide
example : uploadCompareVersions "1.0.0-alpha".data "1.0.0".data = some (-1) := by decide
example : uploadCompareVersions "1.0".data "1.0.0".data = some 0 := by decide
example : repoCompareVersions "1.0.0a".data "1.0.0".data = none := by decide

end PubProxy
